import Mathlib

/-!
# Verified model of the messenger-archive ingestion pipeline

A shallow embedding, in Lean 4, of the core of the archive viewer:

* `fixEncoding` — the mojibake repair routine from `utils/encoding.ts`
  (`src/unnamed/part_012`);
* `normalizeAssetUri`, `parseThreadFile`, `parseThreadDirectory` — the
  parser worker (`src/workers/parser.worker.ts`);
* `parseThreadMetadata` / `scanArchive` — the archive scan from the
  conversation-list page (`src/unnamed/part_009`);
* `addThread` — the metadata recomputation in `src/context/AppContext.tsx`.

JavaScript strings are sequences of UTF-16 code units, so the model of a
string is `List Nat` with every element `< 0x10000`.  JavaScript numbers
used here (timestamps, counts, durations) are embedded as `Int`; the one
fractional computation (the progress percentage) is embedded over `ℚ`.
-/

namespace MsgArchive

/-- A JavaScript string: the sequence of its UTF-16 code units. -/
abbrev JsString := List Nat

/-- The UTF-16 code units of one Unicode character (surrogate pair above
the BMP, a single unit otherwise). -/
def charUnits (c : Char) : List Nat :=
  if c.toNat < 0x10000 then [c.toNat]
  else [0xD800 + (c.toNat - 0x10000) / 0x400, 0xDC00 + (c.toNat - 0x10000) % 0x400]

/-- Convert a Lean string literal to its JavaScript (UTF-16) form. -/
def jsStr (s : String) : JsString :=
  (s.data.map charUnits).flatten

/-- Decoder state of the WHATWG UTF-8 decoder: the partially assembled
code point, how many continuation bytes are still expected, how many
have been consumed, and the admissible range for the next byte. -/
structure Utf8State where
  codePoint : Nat
  bytesNeeded : Nat
  bytesSeen : Nat
  lower : Nat
  upper : Nat
deriving DecidableEq

/-- The initial (between-characters) decoder state. -/
def utf8Init : Utf8State :=
  { codePoint := 0, bytesNeeded := 0, bytesSeen := 0, lower := 0x80, upper := 0xBF }

/-- Process one byte in the between-characters state: emit an ASCII code
point, open a multi-byte sequence with the lead-dependent bounds on the
first continuation byte (E0: A0–BF, ED: 80–9F, F0: 90–BF, F4: 80–8F),
or signal an error for an invalid lead byte (0x80–0xC1, 0xF5–0xFF). -/
def utf8Lead (b : Nat) : List Nat × Bool × Utf8State :=
  if b ≤ 0x7F then ([b], false, utf8Init)
  else if 0xC2 ≤ b ∧ b ≤ 0xDF then
    ([], false, { codePoint := b - 0xC0, bytesNeeded := 1, bytesSeen := 0,
                  lower := 0x80, upper := 0xBF })
  else if 0xE0 ≤ b ∧ b ≤ 0xEF then
    ([], false, { codePoint := b - 0xE0, bytesNeeded := 2, bytesSeen := 0,
                  lower := if b = 0xE0 then 0xA0 else 0x80,
                  upper := if b = 0xED then 0x9F else 0xBF })
  else if 0xF0 ≤ b ∧ b ≤ 0xF4 then
    ([], false, { codePoint := b - 0xF0, bytesNeeded := 3, bytesSeen := 0,
                  lower := if b = 0xF0 then 0x90 else 0x80,
                  upper := if b = 0xF4 then 0x8F else 0xBF })
  else ([0xFFFD], true, utf8Init)

/-- One step of the WHATWG UTF-8 decoder: the emitted code points, an
error flag, and the next state.  An out-of-range continuation byte emits
U+FFFD, resets, and reprocesses the byte as a lead byte (the "restore
byte to stream" step of the WHATWG algorithm). -/
def utf8Step (s : Utf8State) (b : Nat) : List Nat × Bool × Utf8State :=
  if s.bytesNeeded = 0 then utf8Lead b
  else if s.lower ≤ b ∧ b ≤ s.upper then
    let cp := s.codePoint * 64 + (b - 0x80)
    if s.bytesSeen + 1 = s.bytesNeeded then ([cp], false, utf8Init)
    else ([], false, { codePoint := cp, bytesNeeded := s.bytesNeeded,
                       bytesSeen := s.bytesSeen + 1, lower := 0x80, upper := 0xBF })
  else
    let r := utf8Lead b
    (0xFFFD :: r.1, true, r.2.2)

/-- Run the decoder over a byte list from a given state; a truncated
sequence at end of input is one more error emitting a single U+FFFD. -/
def utf8Run : Utf8State → List Nat → List Nat × Bool
  | s, [] => if s.bytesNeeded = 0 then ([], false) else ([0xFFFD], true)
  | s, b :: rest =>
    let st := utf8Step s b
    let r := utf8Run st.2.2 rest
    (st.1 ++ r.1, st.2.1 || r.2)

/-- WHATWG UTF-8 decoder on a byte sequence.  Returns the decoded code
points together with a flag recording whether any decoding error
occurred.  On an error the decoder emits U+FFFD and carries on, which is
the behaviour of `TextDecoder` in its default non-fatal mode; a `true`
flag is exactly the situation in which `TextDecoder` with `fatal: true`
— and likewise the UTF-8 validation inside `decodeURIComponent` — would
throw instead. -/
def utf8Decode (bytes : List Nat) : List Nat × Bool :=
  utf8Run utf8Init bytes

/-- Encode a sequence of code points as UTF-16 code units. -/
def utf16Encode (cps : List Nat) : JsString :=
  (cps.map (fun c =>
    if c < 0x10000 then [c]
    else [0xD800 + (c - 0x10000) / 0x400, 0xDC00 + (c - 0x10000) % 0x400])).flatten

/-- `fixEncoding` from `utils/encoding.ts` (`src/unnamed/part_012`).

The source is:

    if (!text) return '';
    try {
      const fixed = decodeURIComponent(escape(text));
      return fixed;
    } catch (e) {
      try {
        const bytes = [];
        for (let i = 0; i < text.length; i++) bytes.push(text.charCodeAt(i));
        const fallbackFixed = new TextDecoder('utf-8').decode(new Uint8Array(bytes));
        return fallbackFixed;
      } catch (e2) { return text; }
    }

Semantics of the primary branch: `escape` leaves the safe ASCII set
(alphanumerics and `@*_+-./`) untouched, writes every other code unit
below 0x100 as `%XX`, and writes every code unit ≥ 0x100 as `%uXXXX`.
`decodeURIComponent` then throws on any `%u` escape (`u` is not a hex
digit), and otherwise reconstitutes exactly the original code-unit
values as bytes and decodes them as strict UTF-8 (each non-ASCII byte of
a multi-byte sequence arrives as its own `%XX` escape, and a bare safe
ASCII character can never serve as a continuation byte, so its UTF-8
validation coincides with the strict decoder).  Hence the primary branch
succeeds exactly when every code unit is < 0x100 and the byte sequence
is valid UTF-8, and it then returns the decoded text.

Semantics of the fallback branch: `new Uint8Array(bytes)` truncates each
code unit modulo 0x100, and `TextDecoder` in its default non-fatal mode
never throws — it decodes leniently, substituting U+FFFD — so the inner
catch (returning `text` unchanged) is unreachable. -/
def fixEncoding (text : JsString) : JsString :=
  if text = [] then []
  else if (text.all fun u => decide (u < 256)) = true ∧ (utf8Decode text).2 = false then
    utf16Encode (utf8Decode text).1
  else
    utf16Encode (utf8Decode (text.map fun u => u % 256)).1

/-- The literal `'messages/'` from `normalizeAssetUri`. -/
def messagesSegment : JsString := jsStr "messages/"

/-- The literal `'stickers_used/'` from `normalizeAssetUri`. -/
def stickersUsedSegment : JsString := jsStr "stickers_used/"

/-- `String.prototype.indexOf` restricted to a needle: the index of the
first occurrence, `none` standing for JavaScript's `-1`. -/
def jsIndexOf (pat : JsString) : JsString → Option Nat
  | [] => if pat = [] then some 0 else none
  | c :: rest =>
    if pat.isPrefixOf (c :: rest) then some 0
    else (jsIndexOf pat rest).map (· + 1)

/-- `normalizeAssetUri` from `src/workers/parser.worker.ts` (lines
15–34).  `none` models both `undefined` and a missing argument; the
`if (!uri)` guard also sends the empty string to `undefined`. -/
def normalizeAssetUri (uri : Option JsString) : Option JsString :=
  match uri with
  | none => none
  | some u =>
    if u = [] then none
    else
      match jsIndexOf messagesSegment u with
      | some messagesIndex => some (u.drop (messagesIndex + messagesSegment.length))
      | none =>
        if stickersUsedSegment.isPrefixOf u then
          some u
        else
          -- logDebug('UNEXPECTED_URI_FORMAT', ...): return the original
          some u

/-! ## Data model (`src/types/messenger.ts`)

The structures below are the zod-validated shapes: optional zod fields
become `Option`, JavaScript numbers used as timestamps, counts and
durations become `Int`. -/

/-- `AttachmentSchema`: `{ uri, creation_timestamp? }`. -/
structure Attachment where
  uri : JsString
  creation_timestamp : Option Int
deriving DecidableEq

/-- `ReactionSchema`: `{ reaction, actor }`. -/
structure Reaction where
  reaction : JsString
  actor : JsString
deriving DecidableEq

/-- The anonymous `{ uri }` objects used for stickers and gifs. -/
structure UriRef where
  uri : JsString
deriving DecidableEq

/-- `MessageSchema`. -/
structure Message where
  sender_name : JsString
  timestamp_ms : Int
  content : Option JsString
  photos : Option (List Attachment)
  videos : Option (List Attachment)
  audio_files : Option (List Attachment)
  reactions : Option (List Reaction)
  is_unsent : Option Bool
  type : Option JsString
  sticker : Option UriRef
  gifs : Option (List UriRef)
  files : Option (List Attachment)
  call_duration : Option Int
deriving DecidableEq

/-- `ParticipantSchema`: `{ name }`. -/
structure Participant where
  name : JsString
deriving DecidableEq

/-- `ThreadSchema`: the validated shape of one fragment file. -/
structure Thread where
  participants : List Participant
  messages : List Message
  title : Option JsString
  is_still_participant : Option Bool
  thread_type : Option JsString
  thread_path : Option JsString
deriving DecidableEq

/-- `ParsedThread`. -/
structure ParsedThread where
  threadId : JsString
  participants : List Participant
  messages : List Message
  title : Option JsString
deriving DecidableEq

/-- `ThreadMetadata`. -/
structure ThreadMetadata where
  id : JsString
  participants : List Participant
  lastMessageTime : Int
  totalMessages : Nat
  title : Option JsString
deriving DecidableEq

/-- The fallible front end of reading one fragment file, as seen by
`parseThreadFile`: the bytes may be unreadable (`getFile` rejects), the
text may fail `JSON.parse`, the JSON may fail `ThreadSchema.parse`, or
validation succeeds with a `Thread` payload. -/
inductive FragmentInput where
  | unreadable
  | badJson
  | badSchema
  | ok (data : Thread)
deriving DecidableEq

/-! ## Parser worker (`src/workers/parser.worker.ts`) -/

/-- JavaScript `x || 0` on a number. -/
def jsOrZero (x : Int) : Int := if x = 0 then 0 else x

/-- JavaScript `x ? f(x) : undefined` on a string-or-undefined (the
empty string is falsy). -/
def jsTruthyMap (x : Option JsString) (f : JsString → JsString) : Option JsString :=
  match x with
  | none => none
  | some s => if s = [] then none else some (f s)

/-- JavaScript `x || d` on a string-or-undefined. -/
def jsOrElse (x : Option JsString) (d : JsString) : JsString :=
  match x with
  | none => d
  | some s => if s = [] then d else s

/-- The comparator `(a, b) => a.timestamp_ms - b.timestamp_ms`, as the
order relation of the (stable) JavaScript array sort it drives. -/
def msgLe (a b : Message) : Bool := decide (a.timestamp_ms ≤ b.timestamp_ms)

/-- `{ ...p, uri: normalizeAssetUri(p.uri) || p.uri }`. -/
def fixAttachment (a : Attachment) : Attachment :=
  { a with uri := jsOrElse (normalizeAssetUri (some a.uri)) a.uri }

/-- `{ ...g, uri: normalizeAssetUri(g.uri) || g.uri }`. -/
def fixUriRef (g : UriRef) : UriRef :=
  { g with uri := jsOrElse (normalizeAssetUri (some g.uri)) g.uri }

/-- `{ ...r, reaction: fixEncoding(r.reaction), actor: fixEncoding(r.actor) }`. -/
def fixReaction (r : Reaction) : Reaction :=
  { r with reaction := fixEncoding r.reaction, actor := fixEncoding r.actor }

/-- `{ ...p, name: fixEncoding(p.name) }`. -/
def fixParticipant (p : Participant) : Participant :=
  { p with name := fixEncoding p.name }

/-- The per-message transform inside `parseThreadFile`'s `.map`. -/
def transformMessage (m : Message) : Message :=
  { m with
    sender_name := fixEncoding m.sender_name
    content := jsTruthyMap m.content fixEncoding
    photos := m.photos.map (List.map fixAttachment)
    videos := m.videos.map (List.map fixAttachment)
    audio_files := m.audio_files.map (List.map fixAttachment)
    gifs := m.gifs.map (List.map fixUriRef)
    files := m.files.map (List.map fixAttachment)
    sticker := m.sticker.map fixUriRef
    reactions := m.reactions.map (List.map fixReaction) }

/-- `parseThreadFile` (lines 40–102): the `try` block reads, repairs,
`JSON.parse`s and schema-validates the file — any of those throwing is
caught and turned into `null` — and on success applies the field-level
repairs, the URI normalization and the per-fragment sort. -/
def parseThreadFile (threadId : JsString) (file : FragmentInput) : Option ParsedThread :=
  match file with
  | .ok validatedData =>
    some { threadId := threadId
           participants := validatedData.participants.map fixParticipant
           messages := (validatedData.messages.map transformMessage).mergeSort msgLe
           title := jsTruthyMap validatedData.title fixEncoding }
  | _ => none

/-- `Math.round` on the idealized (rational) value of a JavaScript
number: nearest integer, ties rounding up. -/
def jsMathRound (q : ℚ) : Int := ⌊q + 1 / 2⌋

/-- `Math.round((fileCount / totalFiles) * 100)`. -/
def progressAfter (fileCount totalFiles : Nat) : Int :=
  jsMathRound ((fileCount : ℚ) / (totalFiles : ℚ) * 100)

/-- The loop state of `parseThreadDirectory`: the accumulators
`messages`, `participants`, `title`, `fileCount`, plus the list of
progress percentages posted so far. -/
structure DirAcc where
  messages : List Message
  participants : List Participant
  title : Option JsString
  fileCount : Nat
  events : List Int
deriving DecidableEq

/-- One iteration of the `for (const fileHandle of messageFiles)` loop
(lines 130–148): parse the fragment; on success append its messages and,
if the accumulated participant list is still empty, capture participants
and title; then bump `fileCount` and post the progress percentage. -/
def stepFragment (threadId : JsString) (totalFiles : Nat) (acc : DirAcc)
    (file : FragmentInput) : DirAcc :=
  let acc1 :=
    match parseThreadFile threadId file with
    | some parsed =>
      if acc.participants.length = 0 then
        { acc with messages := acc.messages ++ parsed.messages
                   participants := parsed.participants
                   title := parsed.title }
      else
        { acc with messages := acc.messages ++ parsed.messages }
    | none => acc
  { acc1 with fileCount := acc1.fileCount + 1
              events := acc1.events ++ [progressAfter (acc1.fileCount + 1) totalFiles] }

/-- The fragment loop of `parseThreadDirectory`. -/
def dirLoop (threadId : JsString) (totalFiles : Nat) : DirAcc → List FragmentInput → DirAcc
  | acc, [] => acc
  | acc, file :: rest => dirLoop threadId totalFiles (stepFragment threadId totalFiles acc file) rest

/-- `parseThreadDirectory` (lines 104–177): posts `PROGRESS 0`, runs the
fragment loop, sorts the accumulated messages by timestamp and emits the
assembled `ParsedThread`.  The second component is the sequence of
progress values posted. -/
def parseThreadDirectory (threadId : JsString) (messageFiles : List FragmentInput) :
    ParsedThread × List Int :=
  let totalFiles := messageFiles.length
  let acc := dirLoop threadId totalFiles
    { messages := [], participants := [], title := none, fileCount := 0, events := [0] }
    messageFiles
  ({ threadId := threadId
     participants := acc.participants
     messages := acc.messages.mergeSort msgLe
     title := acc.title },
   acc.events)

/-! ## Archive scan (`src/unnamed/part_009`, `ConversationList`) -/

/-- One conversation directory as the scan sees it: its path relative to
the archive root and the outcome of reading its `message_1.json`
(`.unreadable` also covers a missing first fragment). -/
structure ThreadDir where
  threadId : JsString
  firstFragment : FragmentInput
deriving DecidableEq

/-- `String.prototype.split` on a one-character separator. -/
def jsSplitOn (sep : Nat) : JsString → List JsString
  | [] => [[]]
  | c :: rest =>
    if c = sep then [] :: jsSplitOn sep rest
    else
      match jsSplitOn sep rest with
      | [] => [[c]]             -- unreachable: jsSplitOn never returns []
      | s :: ss => (c :: s) :: ss

/-- `parseThreadMetadata` (lines 38–78): metadata from `message_1.json`
alone; any failure falls back to the folder name
(`threadId.split('/').pop()`) with empty participants and zero counts. -/
def parseThreadMetadata (d : ThreadDir) : ThreadMetadata :=
  match d.firstFragment with
  | .ok validatedData =>
    { id := d.threadId
      participants := validatedData.participants.map fixParticipant
      lastMessageTime :=
        match validatedData.messages.getLast? with
        | some lastMessage => jsOrZero lastMessage.timestamp_ms
        | none => 0
      totalMessages := validatedData.messages.length
      title := jsTruthyMap validatedData.title fixEncoding }
  | _ =>
    { id := d.threadId
      participants := []
      lastMessageTime := 0
      totalMessages := 0
      title := (jsSplitOn 47 d.threadId).getLast? }

/-- `scanForThreads`: every discovered conversation directory is handed
to `parseThreadMetadata`; `Promise.all` keeps one result per directory
in order. -/
def scanArchive (threadDirs : List ThreadDir) : List ThreadMetadata :=
  threadDirs.map parseThreadMetadata

/-! ## State owner (`src/context/AppContext.tsx`, `addThread`) -/

/-- The comparator `(a, b) => (b.lastMessageTime || 0) - (a.lastMessageTime || 0)`
as the order relation of the stable sort it drives (most recent first). -/
def metaLe (a b : ThreadMetadata) : Bool :=
  decide (jsOrZero b.lastMessageTime ≤ jsOrZero a.lastMessageTime)

/-- `addThread` (lines 48–84), restricted to its metadata update: build
the recomputed `ThreadMetadata` from the full thread, replace the entry
at `findIndex((m) => m.id === metadata.id)` (append if absent), and
re-sort by last message time, most recent first. -/
def addThread (prev : List ThreadMetadata) (thread : ParsedThread) : List ThreadMetadata :=
  let metadata : ThreadMetadata :=
    { id := thread.threadId
      participants := thread.participants
      lastMessageTime :=
        match thread.messages.getLast? with
        | some m => jsOrZero m.timestamp_ms
        | none => 0
      totalMessages := thread.messages.length
      title := thread.title }
  let newMetaArray :=
    match prev.findIdx? (fun m => decide (m.id = metadata.id)) with
    | some existingIndex => prev.set existingIndex metadata
    | none => prev ++ [metadata]
  newMetaArray.mergeSort metaLe

/-! ## Helper notions and lemmas -/

/-- `pat` occurs in `u` at index `i`. -/
def occursAt (pat u : JsString) (i : Nat) : Prop :=
  pat.isPrefixOf (u.drop i) = true

instance (pat u : JsString) (i : Nat) : Decidable (occursAt pat u i) :=
  inferInstanceAs (Decidable (pat.isPrefixOf (u.drop i) = true))

/-- The messages a fragment contributes to the accumulator: those of
its parse result, nothing when the fragment is skipped. -/
def fragMessages (threadId : JsString) (f : FragmentInput) : List Message :=
  match parseThreadFile threadId f with
  | some parsed => parsed.messages
  | none => []

/-- One step of the participants/title capture: the fragment's
participants and title are taken if and only if the accumulated
participant list is still empty. -/
def captureStep (c : List Participant × Option JsString) (p : ParsedThread) :
    List Participant × Option JsString :=
  if c.1.length = 0 then (p.participants, p.title) else c

/-- The capture loop over the successfully parsed fragments. -/
def captureLoop (c : List Participant × Option JsString) :
    List ParsedThread → List Participant × Option JsString
  | [] => c
  | p :: rest => captureLoop (captureStep c p) rest

/-- A concrete fragment whose payload validates with an empty
participant list and title `"A"`. -/
def fragA : FragmentInput :=
  .ok { participants := [], messages := [], title := some (jsStr "A"),
        is_still_participant := none, thread_type := none, thread_path := none }

/-- A concrete fragment whose payload validates with one participant
`"P"` and title `"B"`. -/
def fragB : FragmentInput :=
  .ok { participants := [{ name := jsStr "P" }], messages := [], title := some (jsStr "B"),
        is_still_participant := none, thread_type := none, thread_path := none }

/-- The metadata record `addThread` recomputes from a fully assembled
thread. -/
def recomputedMetadata (thread : ParsedThread) : ThreadMetadata :=
  { id := thread.threadId
    participants := thread.participants
    lastMessageTime :=
      match thread.messages.getLast? with
      | some m => jsOrZero m.timestamp_ms
      | none => 0
    totalMessages := thread.messages.length
    title := thread.title }

/-- A concrete message with timestamp 5 used in example conversations. -/
def msgAt5 : Message :=
  { sender_name := jsStr "P", timestamp_ms := 5, content := none, photos := none,
    videos := none, audio_files := none, reactions := none, is_unsent := none,
    type := none, sticker := none, gifs := none, files := none, call_duration := none }

theorem jsIndexOf_eq_some (pat u : JsString) (k : Nat) (h : jsIndexOf pat u = some k) :
    occursAt pat u k ∧ ∀ j, j < k → ¬ occursAt pat u j := by
  induction u generalizing k with
  | nil =>
    by_cases hp : pat = []
    · simp only [jsIndexOf, if_pos hp, Option.some.injEq] at h
      subst hp
      refine ⟨by simp [occursAt, List.isPrefixOf], ?_⟩
      intro j hj
      exact absurd (h ▸ hj) (Nat.not_lt_zero j)
    · simp [jsIndexOf, hp] at h
  | cons c rest ih =>
    by_cases hp : pat.isPrefixOf (c :: rest) = true
    · simp only [jsIndexOf, if_pos hp, Option.some.injEq] at h
      subst h
      refine ⟨by simpa [occursAt] using hp, ?_⟩
      intro j hj
      exact absurd hj (Nat.not_lt_zero j)
    · simp only [jsIndexOf, if_neg hp, Option.map_eq_some'] at h
      obtain ⟨k2, hk2, rfl⟩ := h
      obtain ⟨h1, h2⟩ := ih k2 hk2
      refine ⟨by simpa [occursAt, List.drop_succ_cons] using h1, ?_⟩
      intro j hj hocc
      cases j with
      | zero => exact hp (by simpa [occursAt] using hocc)
      | succ j2 =>
        exact h2 j2 (Nat.lt_of_succ_lt_succ hj)
          (by simpa [occursAt, List.drop_succ_cons] using hocc)

theorem jsIndexOf_eq_none (pat u : JsString) (h : jsIndexOf pat u = none) :
    ∀ i, ¬ occursAt pat u i := by
  induction u with
  | nil =>
    intro i hocc
    by_cases hp : pat = []
    · simp [jsIndexOf, hp] at h
    · obtain ⟨p0, ps, rfl⟩ := List.exists_cons_of_ne_nil hp
      simp [occursAt, List.drop_nil, List.isPrefixOf] at hocc
  | cons c rest ih =>
    intro i
    by_cases hp : pat.isPrefixOf (c :: rest) = true
    · simp [jsIndexOf, hp] at h
    · simp only [jsIndexOf, if_neg hp, Option.map_eq_none'] at h
      intro hocc
      cases i with
      | zero => exact hp (by simpa [occursAt] using hocc)
      | succ j => exact ih h j (by simpa [occursAt, List.drop_succ_cons] using hocc)

theorem stepFragment_messages (tid : JsString) (total : Nat) (acc : DirAcc) (f : FragmentInput) :
    (stepFragment tid total acc f).messages = acc.messages ++ fragMessages tid f := by
  unfold stepFragment fragMessages
  cases parseThreadFile tid f with
  | none => simp
  | some parsed =>
    by_cases h : acc.participants.length = 0 <;> simp [h]

theorem stepFragment_fileCount (tid : JsString) (total : Nat) (acc : DirAcc) (f : FragmentInput) :
    (stepFragment tid total acc f).fileCount = acc.fileCount + 1 := by
  unfold stepFragment
  cases parseThreadFile tid f with
  | none => simp
  | some parsed =>
    by_cases h : acc.participants.length = 0 <;> simp [h]

theorem stepFragment_events (tid : JsString) (total : Nat) (acc : DirAcc) (f : FragmentInput) :
    (stepFragment tid total acc f).events =
      acc.events ++ [progressAfter (acc.fileCount + 1) total] := by
  unfold stepFragment
  cases parseThreadFile tid f with
  | none => simp
  | some parsed =>
    by_cases h : acc.participants.length = 0 <;> simp [h]

theorem stepFragment_capture_none (tid : JsString) (total : Nat) (acc : DirAcc)
    (f : FragmentInput) (h : parseThreadFile tid f = none) :
    ((stepFragment tid total acc f).participants, (stepFragment tid total acc f).title) =
      (acc.participants, acc.title) := by
  unfold stepFragment
  rw [h]

theorem stepFragment_capture_some (tid : JsString) (total : Nat) (acc : DirAcc)
    (f : FragmentInput) (parsed : ParsedThread) (h : parseThreadFile tid f = some parsed) :
    ((stepFragment tid total acc f).participants, (stepFragment tid total acc f).title) =
      captureStep (acc.participants, acc.title) parsed := by
  unfold stepFragment captureStep
  rw [h]
  by_cases hlen : acc.participants.length = 0 <;> simp [hlen]

theorem dirLoop_messages (tid : JsString) (total : Nat) (frags : List FragmentInput) :
    ∀ acc, (dirLoop tid total acc frags).messages =
      acc.messages ++ frags.flatMap (fragMessages tid) := by
  induction frags with
  | nil => intro acc; simp [dirLoop]
  | cons f rest ih =>
    intro acc
    simp [dirLoop, ih, stepFragment_messages]

theorem dirLoop_fileCount (tid : JsString) (total : Nat) (frags : List FragmentInput) :
    ∀ acc, (dirLoop tid total acc frags).fileCount = acc.fileCount + frags.length := by
  induction frags with
  | nil => intro acc; simp [dirLoop]
  | cons f rest ih =>
    intro acc
    simp [dirLoop, ih, stepFragment_fileCount]
    omega

theorem dirLoop_events (tid : JsString) (total : Nat) (frags : List FragmentInput) :
    ∀ acc, (dirLoop tid total acc frags).events =
      acc.events ++
        (List.range' (acc.fileCount + 1) frags.length).map (fun k => progressAfter k total) := by
  induction frags with
  | nil => intro acc; simp [dirLoop]
  | cons f rest ih =>
    intro acc
    simp only [List.length_cons]
    rw [List.range'_succ]
    simp only [dirLoop, ih, stepFragment_events, stepFragment_fileCount, List.map_cons]
    simp

theorem dirLoop_capture (tid : JsString) (total : Nat) (frags : List FragmentInput) :
    ∀ acc, ((dirLoop tid total acc frags).participants, (dirLoop tid total acc frags).title) =
      captureLoop (acc.participants, acc.title) (frags.filterMap (parseThreadFile tid)) := by
  induction frags with
  | nil => intro acc; simp [dirLoop, captureLoop]
  | cons f rest ih =>
    intro acc
    simp only [dirLoop]
    rw [ih (stepFragment tid total acc f)]
    cases h : parseThreadFile tid f with
    | none =>
      rw [List.filterMap_cons_none h, stepFragment_capture_none tid total acc f h]
    | some parsed =>
      rw [List.filterMap_cons_some h, captureLoop,
        stepFragment_capture_some tid total acc f parsed h]

/-- The assembled `ParsedThread` of `parseThreadDirectory`, in closed
form: the final sort of the concatenated fragment messages, and the
participants/title capture over the successfully parsed fragments. -/
theorem parseThreadDirectory_result (tid : JsString) (frags : List FragmentInput) :
    (parseThreadDirectory tid frags).1 =
      { threadId := tid
        participants := (captureLoop ([], none) (frags.filterMap (parseThreadFile tid))).1
        messages := (frags.flatMap (fragMessages tid)).mergeSort msgLe
        title := (captureLoop ([], none) (frags.filterMap (parseThreadFile tid))).2 } := by
  have hc := dirLoop_capture tid frags.length frags
    { messages := [], participants := [], title := none, fileCount := 0, events := [0] }
  have hm := dirLoop_messages tid frags.length frags
    { messages := [], participants := [], title := none, fileCount := 0, events := [0] }
  simp only [parseThreadDirectory, ParsedThread.mk.injEq, true_and]
  refine ⟨?_, ?_, ?_⟩
  · exact (Prod.ext_iff.mp hc).1
  · rw [hm]; simp
  · exact (Prod.ext_iff.mp hc).2

/-- The progress events of `parseThreadDirectory`, in closed form. -/
theorem parseThreadDirectory_events (tid : JsString) (frags : List FragmentInput) :
    (parseThreadDirectory tid frags).2 =
      0 :: (List.range' 1 frags.length).map (fun k => progressAfter k frags.length) := by
  have he := dirLoop_events tid frags.length frags
    { messages := [], participants := [], title := none, fileCount := 0, events := [0] }
  simp only [parseThreadDirectory]
  rw [he]
  simp

theorem msgLe_trans : ∀ a b c : Message, msgLe a b → msgLe b c → msgLe a c := by
  intro a b c hab hbc
  simp only [msgLe, decide_eq_true_eq] at *
  omega

theorem msgLe_total : ∀ a b : Message, msgLe a b || msgLe b a := by
  intro a b
  simp only [msgLe, Bool.or_eq_true, decide_eq_true_eq]
  omega

/-- Stability of `mergeSort` for a predicate on which the comparator is
constantly true: the sorted list restricted to such elements is exactly
the input restricted to them, in input order. -/
theorem filter_mergeSort_of_const {α} (le : α → α → Bool)
    (trans : ∀ a b c : α, le a b → le b c → le a c)
    (total : ∀ a b : α, le a b || le b a)
    (p : α → Bool) (hp : ∀ a b, p a = true → p b = true → le a b = true)
    (l : List α) : (l.mergeSort le).filter p = l.filter p := by
  have hpw : (l.filter p).Pairwise (fun a b => le a b) :=
    List.pairwise_of_forall_mem_list fun a ha b hb =>
      hp a b (List.of_mem_filter ha) (List.of_mem_filter hb)
  have hsub : List.Sublist (l.filter p) (l.mergeSort le) :=
    List.sublist_mergeSort trans total hpw (List.filter_sublist l)
  have hsub2 := hsub.filter p
  rw [List.filter_filter] at hsub2
  have hself : (l.filter fun a => p a && p a) = l.filter p :=
    List.filter_congr fun a _ => by cases p a <;> rfl
  rw [hself] at hsub2
  have hperm : List.Perm ((l.mergeSort le).filter p) (l.filter p) :=
    (List.mergeSort_perm l le).filter p
  exact (hsub2.eq_of_length hperm.length_eq.symm).symm

/-! ## Claim C1 -/

/-- C1 (refuted; the theorem evaluates the code at the failing inputs).
The claim states that `repair(repair(s)) == repair(s)` for every string
and that repair leaves already-correct text (such as correct Polish
letters) unchanged.  The code violates both parts: repairing the
mojibake `"Å¼"` correctly yields `"ż"`, but repairing it a second time
reaches the destructive fallback (the code unit 0x17C exceeds one byte,
`decodeURIComponent(escape(...))` throws, and the fallback truncates
each code unit modulo 0x100 before lenient UTF-8 decoding) and returns
`"|"`; likewise the already-correct `"ł"` is mangled to `"B"`. -/
theorem fixEncoding_not_idempotent :
    fixEncoding (jsStr "Å¼") = jsStr "ż"
    ∧ fixEncoding (fixEncoding (jsStr "Å¼")) = jsStr "|"
    ∧ fixEncoding (fixEncoding (jsStr "Å¼")) ≠ fixEncoding (jsStr "Å¼")
    ∧ fixEncoding (jsStr "ł") ≠ jsStr "ł" := by
  decide

/-! ## Claim C2 -/

/-- C2 (refuted; the theorem evaluates the code at the failing inputs).
The claim states that whenever byte reinterpretation fails — a UTF-16
code unit exceeds 0xFF, or the reassembled bytes are not valid UTF-8 —
repair returns the original input unchanged.  In the code both failure
modes instead take the lossy fallback (`Uint8Array` truncation plus
non-fatal `TextDecoder`): `"ł"` (code unit 0x142 > 0xFF) comes back as
`"B"`, and `"Å"` (the lone byte 0xC5, invalid UTF-8) comes back as the
replacement character U+FFFD.  Only the empty-string part of the claim
holds. -/
theorem fixEncoding_fallback_destructive :
    fixEncoding (jsStr "ł") = jsStr "B"
    ∧ fixEncoding (jsStr "ł") ≠ jsStr "ł"
    ∧ fixEncoding (jsStr "Å") = [0xFFFD]
    ∧ fixEncoding (jsStr "Å") ≠ jsStr "Å"
    ∧ fixEncoding (jsStr "") = jsStr "" := by
  decide

/-! ## Claim C4 -/

/-- C4: for every non-empty raw media URI, if `"messages/"` occurs in
it, `normalizeAssetUri` returns exactly the portion after the first
occurrence; otherwise — whether or not it starts with
`"stickers_used/"` (an unrecognized shape such as an external URL) — the
input is returned unchanged, without failing. -/
theorem normalizeAssetUri_spec (u : JsString) (hu : u ≠ []) :
    ((∃ i, occursAt messagesSegment u i) →
      ∃ k, occursAt messagesSegment u k ∧ (∀ j, j < k → ¬ occursAt messagesSegment u j) ∧
        normalizeAssetUri (some u) = some (u.drop (k + messagesSegment.length)))
    ∧ ((∀ i, ¬ occursAt messagesSegment u i) → stickersUsedSegment.isPrefixOf u = true →
        normalizeAssetUri (some u) = some u)
    ∧ ((∀ i, ¬ occursAt messagesSegment u i) → stickersUsedSegment.isPrefixOf u = false →
        normalizeAssetUri (some u) = some u) := by
  refine ⟨?_, ?_, ?_⟩
  · rintro ⟨i, hi⟩
    cases h : jsIndexOf messagesSegment u with
    | none => exact absurd hi (jsIndexOf_eq_none _ _ h i)
    | some k =>
      obtain ⟨h1, h2⟩ := jsIndexOf_eq_some _ _ _ h
      exact ⟨k, h1, h2, by simp [normalizeAssetUri, hu, h]⟩
  · intro hno hst
    cases h : jsIndexOf messagesSegment u with
    | some k => exact absurd (jsIndexOf_eq_some _ _ _ h).1 (hno k)
    | none => simp [normalizeAssetUri, hu, h, hst]
  · intro hno hst
    cases h : jsIndexOf messagesSegment u with
    | some k => exact absurd (jsIndexOf_eq_some _ _ _ h).1 (hno k)
    | none => simp [normalizeAssetUri, hu, h, hst]

/-- Witness for C4 at the spec's own example URI: `"messages/"` occurs
first at index 23 and normalization returns the suffix after it. -/
theorem normalizeAssetUri_spec_witness :
    ∃ k, occursAt messagesSegment (jsStr "your_facebook_activity/messages/inbox_x/photos/p.jpg") k ∧
      (∀ j, j < k →
        ¬ occursAt messagesSegment (jsStr "your_facebook_activity/messages/inbox_x/photos/p.jpg") j) ∧
      normalizeAssetUri (some (jsStr "your_facebook_activity/messages/inbox_x/photos/p.jpg")) =
        some ((jsStr "your_facebook_activity/messages/inbox_x/photos/p.jpg").drop
          (k + messagesSegment.length)) :=
  (normalizeAssetUri_spec (jsStr "your_facebook_activity/messages/inbox_x/photos/p.jpg")
    (by decide)).1 ⟨23, by decide⟩

/-! ## Claim C10 -/

/-- C10: for every defined non-empty input, `normalizeAssetUri` returns
either the input itself or the contiguous suffix following the first
occurrence of `"messages/"` — it never inserts, reorders or alters
characters — and it returns `undefined` exactly when the input is
`undefined` or the empty string. -/
theorem normalizeAssetUri_shape (u : JsString) (hu : u ≠ []) (x : Option JsString) :
    (normalizeAssetUri (some u) = some u ∨
      ∃ k, occursAt messagesSegment u k ∧ (∀ j, j < k → ¬ occursAt messagesSegment u j) ∧
        normalizeAssetUri (some u) = some (u.drop (k + messagesSegment.length)))
    ∧ (normalizeAssetUri x = none ↔ (x = none ∨ x = some [])) := by
  constructor
  · cases h : jsIndexOf messagesSegment u with
    | some k =>
      obtain ⟨h1, h2⟩ := jsIndexOf_eq_some _ _ _ h
      exact Or.inr ⟨k, h1, h2, by simp [normalizeAssetUri, hu, h]⟩
    | none =>
      left
      simp [normalizeAssetUri, hu, h]
  · cases x with
    | none => simp [normalizeAssetUri]
    | some v =>
      by_cases hv : v = []
      · subst hv
        simp [normalizeAssetUri]
      · cases h : jsIndexOf messagesSegment v with
        | some k => simp [normalizeAssetUri, hv, h]
        | none => simp [normalizeAssetUri, hv, h]

/-- Witness for C10 at an external URL (returned unchanged) and the
empty string (sent to `undefined`). -/
theorem normalizeAssetUri_shape_witness :
    (normalizeAssetUri (some (jsStr "https://example.com/a.jpg")) =
        some (jsStr "https://example.com/a.jpg") ∨
      ∃ k, occursAt messagesSegment (jsStr "https://example.com/a.jpg") k ∧
        (∀ j, j < k → ¬ occursAt messagesSegment (jsStr "https://example.com/a.jpg") j) ∧
        normalizeAssetUri (some (jsStr "https://example.com/a.jpg")) =
          some ((jsStr "https://example.com/a.jpg").drop (k + messagesSegment.length)))
    ∧ (normalizeAssetUri (some []) = none ↔
        ((some [] : Option JsString) = none ∨ (some [] : Option JsString) = some [])) :=
  normalizeAssetUri_shape (jsStr "https://example.com/a.jpg") (by decide) (some [])

/-! ## Claim C3 -/

/-- C3: for every conversation, the assembled `messages` array is
sorted ascending by `timestamp_ms`; its length is the sum of the
message counts of the successfully parsed fragments (no message dropped
or duplicated); and the sort is stable — for every timestamp, the
messages carrying it appear in exactly the order in which the fragment
loop accumulated them. -/
theorem parseThreadDirectory_sorted_merge (threadId : JsString) (frags : List FragmentInput)
    (t : Int) :
    ((parseThreadDirectory threadId frags).1).messages.Pairwise
        (fun a b => a.timestamp_ms ≤ b.timestamp_ms)
    ∧ ((parseThreadDirectory threadId frags).1).messages.length =
        (frags.map (fun f => (fragMessages threadId f).length)).sum
    ∧ ((parseThreadDirectory threadId frags).1).messages.filter
          (fun m => decide (m.timestamp_ms = t)) =
        (frags.flatMap (fragMessages threadId)).filter (fun m => decide (m.timestamp_ms = t)) := by
  have hmsgs : ((parseThreadDirectory threadId frags).1).messages =
      (frags.flatMap (fragMessages threadId)).mergeSort msgLe := by
    rw [parseThreadDirectory_result]
  refine ⟨?_, ?_, ?_⟩
  · rw [hmsgs]
    have hs := List.sorted_mergeSort msgLe_trans msgLe_total
      (frags.flatMap (fragMessages threadId))
    exact hs.imp fun h => by simpa [msgLe] using h
  · rw [hmsgs, List.length_mergeSort]
    simp [List.flatMap, Function.comp_def]
  · rw [hmsgs]
    refine filter_mergeSort_of_const msgLe msgLe_trans msgLe_total _ ?_ _
    intro a b ha hb
    simp only [decide_eq_true_eq] at ha hb
    simp [msgLe, ha, hb]

/-! ## Claim C5 -/

/-- C5: a fragment whose bytes are unreadable, whose JSON is invalid or
whose content fails schema validation parses to `null`; such a fragment
is skipped without affecting the assembled conversation (dropping it
from the fragment list produces the same `ParsedThread`); and when no
fragment parses successfully the assembly still yields a conversation
with an empty message list instead of raising. -/
theorem parseThreadDirectory_skips_bad_fragments (tid : JsString) (bad : FragmentInput)
    (pre post frags : List FragmentInput)
    (hbad : parseThreadFile tid bad = none)
    (hall : ∀ f ∈ frags, parseThreadFile tid f = none) :
    parseThreadFile tid FragmentInput.unreadable = none
    ∧ parseThreadFile tid FragmentInput.badJson = none
    ∧ parseThreadFile tid FragmentInput.badSchema = none
    ∧ (parseThreadDirectory tid (pre ++ bad :: post)).1 = (parseThreadDirectory tid (pre ++ post)).1
    ∧ ((parseThreadDirectory tid frags).1).messages = [] := by
  refine ⟨rfl, rfl, rfl, ?_, ?_⟩
  · have hfm : (pre ++ bad :: post).filterMap (parseThreadFile tid) =
        (pre ++ post).filterMap (parseThreadFile tid) := by
      simp [List.filterMap_append, List.filterMap_cons, hbad]
    have hfg : (pre ++ bad :: post).flatMap (fragMessages tid) =
        (pre ++ post).flatMap (fragMessages tid) := by
      simp [List.flatMap_append, fragMessages, hbad]
    rw [parseThreadDirectory_result, parseThreadDirectory_result, hfm, hfg]
  · rw [parseThreadDirectory_result]
    have hnil : frags.flatMap (fragMessages tid) = [] := by
      rw [List.flatMap_eq_nil_iff]
      intro f hf
      simp [fragMessages, hall f hf]
    simp [hnil]

/-- Witness for C5: a two-fragment conversation in which both fragments
are corrupt (unreadable bytes, invalid JSON) still assembles, with zero
messages, and an extra bad-schema fragment is dropped without changing
the result. -/
theorem parseThreadDirectory_skips_bad_fragments_witness :
    parseThreadFile (jsStr "t") FragmentInput.unreadable = none
    ∧ parseThreadFile (jsStr "t") FragmentInput.badJson = none
    ∧ parseThreadFile (jsStr "t") FragmentInput.badSchema = none
    ∧ (parseThreadDirectory (jsStr "t")
          ([FragmentInput.unreadable] ++ FragmentInput.badSchema :: [fragB])).1 =
        (parseThreadDirectory (jsStr "t") ([FragmentInput.unreadable] ++ [fragB])).1
    ∧ ((parseThreadDirectory (jsStr "t")
          [FragmentInput.unreadable, FragmentInput.badJson]).1).messages = [] :=
  parseThreadDirectory_skips_bad_fragments (jsStr "t") FragmentInput.badSchema
    [FragmentInput.unreadable] [fragB] [FragmentInput.unreadable, FragmentInput.badJson]
    rfl (by intro f hf; simp at hf; rcases hf with h | h <;> subst h <;> rfl)

/-! ## Claim C6 -/

/-- C6 counterexample: `fragA` is the first successfully parsed
fragment (its parse succeeds, with title `"A"` and an empty participant
list), yet the assembled conversation takes title `"B"` and the
participants of the *second* fragment — so participants and title are
not captured from the first successfully parsed fragment, and later
fragments are not always discarded. -/
theorem parseThreadDirectory_capture_counterexample :
    (parseThreadFile (jsStr "t") fragA).isSome = true
    ∧ (parseThreadFile (jsStr "t") fragA).map ParsedThread.title = some (some (jsStr "A"))
    ∧ ((parseThreadDirectory (jsStr "t") [fragA, fragB]).1).title = some (jsStr "B")
    ∧ ((parseThreadDirectory (jsStr "t") [fragA, fragB]).1).participants = [{ name := jsStr "P" }]
    ∧ (some (jsStr "B") : Option JsString) ≠ some (jsStr "A") := by
  refine ⟨rfl, by decide, ?_, ?_, by decide⟩ <;>
    · show _ = _
      decide

/-- C6 as amended: participants and title are captured from the first
successfully parsed fragment whose participant list is non-empty; every
fragment parsed after that one has its participants and title
discarded.  (Fragments parsed earlier — necessarily with empty
participant lists — have their titles transiently captured and then
overwritten.) -/
theorem parseThreadDirectory_capture_first_nonempty (tid : JsString)
    (frags : List FragmentInput) (p : ParsedThread)
    (hp : (frags.filterMap (parseThreadFile tid)).find?
        (fun q => decide (q.participants ≠ [])) = some p) :
    ((parseThreadDirectory tid frags).1).participants = p.participants
    ∧ ((parseThreadDirectory tid frags).1).title = p.title := by
  have hcap : captureLoop ([], none) (frags.filterMap (parseThreadFile tid)) =
      (p.participants, p.title) := by
    have hgen : ∀ (l : List ParsedThread) (c : List Participant × Option JsString),
        c.1.length = 0 →
        l.find? (fun q => decide (q.participants ≠ [])) = some p →
        captureLoop c l = (p.participants, p.title) := by
      intro l
      induction l with
      | nil => intro c _ hfind; simp at hfind
      | cons q rest ih =>
        intro c hc hfind
        by_cases hq : q.participants = []
        · rw [List.find?_cons_of_neg _ (by simp [hq])] at hfind
          rw [captureLoop]
          exact ih (captureStep c q) (by simp [captureStep, hc, hq]) hfind
        · rw [List.find?_cons_of_pos _ (by simp [hq])] at hfind
          have hqp : q = p := by
            simpa using hfind
          rw [captureLoop]
          have hstep : captureStep c q = (q.participants, q.title) := by
            simp [captureStep, hc]
          rw [hstep, hqp]
          have hdone : ∀ (l2 : List ParsedThread) (c2 : List Participant × Option JsString),
              c2.1.length ≠ 0 → captureLoop c2 l2 = c2 := by
            intro l2
            induction l2 with
            | nil => intro c2 _; rfl
            | cons r rest2 ih2 =>
              intro c2 hc2
              rw [captureLoop]
              rw [show captureStep c2 r = c2 by simp [captureStep, hc2]]
              exact ih2 c2 hc2
          exact hdone rest _ (by simp [hqp ▸ hq])
    exact hgen _ _ (by simp) hp
  rw [parseThreadDirectory_result]
  exact ⟨(Prod.ext_iff.mp hcap).1, (Prod.ext_iff.mp hcap).2⟩

/-- Witness for C6 (amended): in the two-fragment conversation
`[fragA, fragB]` the first fragment with a non-empty participant list is
`fragB`, and the assembled conversation carries its participants and
title. -/
theorem parseThreadDirectory_capture_first_nonempty_witness :
    ((parseThreadDirectory (jsStr "t") [fragA, fragB]).1).participants = [{ name := jsStr "P" }]
    ∧ ((parseThreadDirectory (jsStr "t") [fragA, fragB]).1).title = some (jsStr "B") := by
  have hA : parseThreadFile (jsStr "t") fragA =
      some { threadId := jsStr "t", participants := [], messages := [],
             title := some (jsStr "A") } := by
    have h1 : jsTruthyMap (some (jsStr "A")) fixEncoding = some (jsStr "A") := by decide
    simp [parseThreadFile, fragA, h1]
  have hB : parseThreadFile (jsStr "t") fragB =
      some { threadId := jsStr "t", participants := [{ name := jsStr "P" }], messages := [],
             title := some (jsStr "B") } := by
    have h1 : jsTruthyMap (some (jsStr "B")) fixEncoding = some (jsStr "B") := by decide
    have h2 : fixParticipant { name := jsStr "P" } = { name := jsStr "P" } := by decide
    simp [parseThreadFile, fragB, h1, h2]
  exact parseThreadDirectory_capture_first_nonempty (jsStr "t") [fragA, fragB]
    { threadId := jsStr "t", participants := [{ name := jsStr "P" }], messages := [],
      title := some (jsStr "B") }
    (by rw [List.filterMap_cons_some hA, List.filterMap_cons_some hB]
        simp)

/-! ## Claim C7 -/

theorem progressAfter_eq (k n : Nat) (hn : 0 < n) :
    progressAfter k n = (((200 * k + n) / (2 * n) : Nat) : Int) := by
  unfold progressAfter jsMathRound
  have hn0 : (n : ℚ) ≠ 0 := Nat.cast_ne_zero.mpr hn.ne'
  have hq : (k : ℚ) / (n : ℚ) * 100 + 1 / 2 =
      (((200 * k + n : ℕ) : ℤ) : ℚ) / ((2 * n : ℕ) : ℚ) := by
    push_cast
    field_simp
    ring
  rw [hq, Rat.floor_intCast_div_natCast]
  exact (Int.ofNat_ediv (200 * k + n) (2 * n)).symm

theorem progressAfter_mono (k n : Nat) (hn : 0 < n) :
    progressAfter k n ≤ progressAfter (k + 1) n := by
  rw [progressAfter_eq k n hn, progressAfter_eq (k + 1) n hn]
  have h := Nat.div_le_div_right (c := 2 * n)
    (show 200 * k + n ≤ 200 * (k + 1) + n by omega)
  exact_mod_cast h

theorem progressAfter_self (n : Nat) (hn : 0 < n) : progressAfter n n = 100 := by
  rw [progressAfter_eq n n hn]
  have h : (200 * n + n) / (2 * n) = 100 :=
    Nat.div_eq_of_lt_le (by omega) (by omega)
  exact_mod_cast h

theorem progressAfter_eq_100_iff (k n : Nat) (hn : 0 < n) (hk : k ≤ n) :
    progressAfter k n = 100 ↔ 199 * n ≤ 200 * k := by
  rw [progressAfter_eq k n hn]
  constructor
  · intro h
    have hx : (200 * k + n) / (2 * n) = 100 := by exact_mod_cast h
    have h100 := (Nat.le_div_iff_mul_le (by omega : 0 < 2 * n)).mp hx.ge
    omega
  · intro h
    have hx : (200 * k + n) / (2 * n) = 100 :=
      Nat.div_eq_of_lt_le (by omega) (by omega)
    exact_mod_cast hx

theorem progressAfter_ne_100 (k n : Nat) (hn : 0 < n) (hlt : n < 200) (hk : k < n) :
    progressAfter k n ≠ 100 := by
  rw [progressAfter_eq k n hn]
  intro h
  have hx : (200 * k + n) / (2 * n) = 100 := by exact_mod_cast h
  have h100 := (Nat.le_div_iff_mul_le (by omega : 0 < 2 * n)).mp hx.ge
  omega

theorem chain_le_map_range (g : Nat → Int) (hg : ∀ i, g i ≤ g (i + 1)) :
    ∀ len s, List.Chain' (fun a b : Int => a ≤ b) ((List.range' s len).map g) := by
  intro len
  induction len with
  | zero => intro s; simp
  | succ len2 ih =>
    intro s
    rw [List.range'_succ]
    cases len2 with
    | zero => simp
    | succ len3 =>
      rw [List.range'_succ, List.map_cons, List.map_cons, List.chain'_cons]
      refine ⟨hg s, ?_⟩
      have h := ih (s + 1)
      rw [List.range'_succ, List.map_cons] at h
      exact h

/-- C7 as amended: for a conversation with at least one fragment the
progress values are `0` followed by
`Math.round(k / total * 100)` for `k = 1, …, total`; they are
monotonically non-decreasing and end at exactly 100 — but a value of
100 is reported exactly when `200 * completed ≥ 199 * total`, so for
conversations of 200 fragments or more it is already reported before
the last fragment; only for fewer than 200 fragments is 100 reported
exclusively after the last one. -/
theorem parseThreadDirectory_progress (tid : JsString) (frags : List FragmentInput)
    (h1 : 1 ≤ frags.length) :
    (parseThreadDirectory tid frags).2 =
      0 :: (List.range' 1 frags.length).map (fun k => progressAfter k frags.length)
    ∧ List.Chain' (fun a b : Int => a ≤ b) ((parseThreadDirectory tid frags).2)
    ∧ ((parseThreadDirectory tid frags).2).getLast? = some 100
    ∧ (∀ k, k ≤ frags.length →
        (progressAfter k frags.length = 100 ↔ 199 * frags.length ≤ 200 * k))
    ∧ (frags.length < 200 → ∀ k, k < frags.length → progressAfter k frags.length ≠ 100) := by
  have hn : 0 < frags.length := h1
  have hev := parseThreadDirectory_events tid frags
  have hm : frags.length = (frags.length - 1) + 1 := by omega
  refine ⟨hev, ?_, ?_, ?_, ?_⟩
  · rw [hev, hm, List.range'_succ, List.map_cons, List.chain'_cons]
    constructor
    · rw [progressAfter_eq 1 _ (by omega)]
      exact_mod_cast Nat.zero_le _
    · have h := chain_le_map_range (fun k => progressAfter k ((frags.length - 1) + 1))
        (fun i => progressAfter_mono i _ (by omega)) ((frags.length - 1) + 1) 1
      rw [List.range'_succ, List.map_cons] at h
      exact h
  · rw [hev, hm, List.range'_concat, List.map_append, List.map_cons, List.map_nil,
      ← List.cons_append, List.getLast?_concat,
      show 1 + 1 * (frags.length - 1) = (frags.length - 1) + 1 by omega,
      progressAfter_self _ (by omega)]
  · intro k hk
    exact progressAfter_eq_100_iff k frags.length hn hk
  · intro hlt k hk
    exact progressAfter_ne_100 k frags.length hn hlt hk

/-- C7 counterexample: in a conversation of 200 fragments the last two
progress reports — the one after fragment 199, before the last
fragment, and the one after fragment 200 — are both exactly 100,
refuting "reaching exactly 100 only after the last fragment has been
processed, never earlier". -/
theorem parseThreadDirectory_progress_counterexample :
    (parseThreadDirectory (jsStr "t") (List.replicate 200 FragmentInput.unreadable)).2 =
      0 :: (List.range' 1 200).map (fun k => progressAfter k 200)
    ∧ (parseThreadDirectory (jsStr "t") (List.replicate 200 FragmentInput.unreadable)).2 =
        (0 :: (List.range' 1 198).map (fun k => progressAfter k 200)) ++ [100, 100]
    ∧ progressAfter 199 200 = 100
    ∧ (199 : Nat) ≠ 200 := by
  have hev := parseThreadDirectory_events (jsStr "t") (List.replicate 200 FragmentInput.unreadable)
  rw [List.length_replicate] at hev
  have h199 : progressAfter 199 200 = 100 := by
    rw [progressAfter_eq 199 200 (by omega)]
    decide
  have h200 : progressAfter 200 200 = 100 := progressAfter_self 200 (by omega)
  refine ⟨hev, ?_, h199, by decide⟩
  rw [hev]
  rw [show (200 : Nat) = 198 + 1 + 1 from rfl, List.range'_concat, List.range'_concat]
  norm_num [List.map_append, h199, h200]

/-- Witness for C7 (amended) on a one-fragment conversation. -/
theorem parseThreadDirectory_progress_witness :
    (parseThreadDirectory (jsStr "t") [FragmentInput.unreadable]).2 =
      0 :: (List.range' 1 1).map (fun k => progressAfter k 1)
    ∧ List.Chain' (fun a b : Int => a ≤ b)
        ((parseThreadDirectory (jsStr "t") [FragmentInput.unreadable]).2)
    ∧ ((parseThreadDirectory (jsStr "t") [FragmentInput.unreadable]).2).getLast? = some 100
    ∧ (∀ k, k ≤ 1 → (progressAfter k 1 = 100 ↔ 199 * 1 ≤ 200 * k))
    ∧ (1 < 200 → ∀ k, k < 1 → progressAfter k 1 ≠ 100) :=
  parseThreadDirectory_progress (jsStr "t") [FragmentInput.unreadable] (by decide)

/-! ## Claim C8 -/

theorem jsSplitOn_ne_nil (sep : Nat) (l : JsString) : jsSplitOn sep l ≠ [] := by
  induction l with
  | nil => simp [jsSplitOn]
  | cons c rest ih =>
    rw [jsSplitOn]
    by_cases h : c = sep
    · simp [h]
    · simp only [if_neg h]
      cases hs : jsSplitOn sep rest with
      | nil => simp
      | cons s ss => simp

theorem jsSplitOn_of_not_mem (sep : Nat) (l : JsString) (h : ¬ sep ∈ l) :
    jsSplitOn sep l = [l] := by
  induction l with
  | nil => rfl
  | cons c rest ih =>
    have hc : ¬ c = sep := fun he => h (by simp [he])
    rw [jsSplitOn, if_neg hc, ih (fun hm => h (List.mem_cons_of_mem c hm))]

theorem jsSplitOn_two_le_length (sep : Nat) (l : JsString) (h : sep ∈ l) :
    2 ≤ (jsSplitOn sep l).length := by
  induction l with
  | nil => simp at h
  | cons c rest ih =>
    rw [jsSplitOn]
    by_cases hc : c = sep
    · rw [if_pos hc]
      have hne := jsSplitOn_ne_nil sep rest
      have hpos : 0 < (jsSplitOn sep rest).length := List.length_pos.mpr hne
      simp only [List.length_cons]
      omega
    · rw [if_neg hc]
      have hm : sep ∈ rest := by
        rcases List.mem_cons.mp h with he | hm
        · exact absurd he.symm hc
        · exact hm
      cases hs : jsSplitOn sep rest with
      | nil => exact absurd hs (jsSplitOn_ne_nil sep rest)
      | cons s ss =>
        have h2 := ih hm
        rw [hs] at h2
        simpa using h2

theorem jsSplitOn_getLast_append (sep : Nat) (nm : JsString) (h : ¬ sep ∈ nm) :
    ∀ pfx, (jsSplitOn sep (pfx ++ sep :: nm)).getLast? = some nm := by
  intro pfx
  induction pfx with
  | nil =>
    rw [List.nil_append, jsSplitOn, if_pos rfl, jsSplitOn_of_not_mem sep nm h]
    rfl
  | cons c rest ih =>
    rw [List.cons_append, jsSplitOn]
    by_cases hc : c = sep
    · rw [if_pos hc]
      obtain ⟨b, L, hbl⟩ := List.exists_cons_of_ne_nil (jsSplitOn_ne_nil sep (rest ++ sep :: nm))
      rw [hbl, List.getLast?_cons_cons, ← hbl]
      exact ih
    · rw [if_neg hc]
      have hmem : sep ∈ rest ++ sep :: nm := by simp
      have hlen := jsSplitOn_two_le_length sep _ hmem
      cases hs : jsSplitOn sep (rest ++ sep :: nm) with
      | nil => exact absurd hs (jsSplitOn_ne_nil _ _)
      | cons s ss =>
        cases ss with
        | nil =>
          rw [hs] at hlen
          simp at hlen
        | cons s2 ss2 =>
          rw [List.getLast?_cons_cons]
          have hih := ih
          rw [hs, List.getLast?_cons_cons] at hih
          exact hih

/-- C8: a conversation directory whose metadata-only parse fails
entirely still contributes exactly one metadata entry to the scan
output, carrying the directory name as its title, an empty participant
list, and zero message count and last-message time. -/
theorem scanArchive_unreadable_fallback (dirs : List ThreadDir) (d : ThreadDir)
    (pfx nm : JsString)
    (hmem : dirs.filter (fun x => decide (x.threadId = d.threadId)) = [d])
    (hfail : ∀ data, d.firstFragment ≠ FragmentInput.ok data)
    (hshape : d.threadId = pfx ++ 47 :: nm ∨ d.threadId = nm)
    (hnm : ¬ 47 ∈ nm) :
    (scanArchive dirs).filter (fun m => decide (m.id = d.threadId)) =
      [{ id := d.threadId, participants := [], lastMessageTime := 0, totalMessages := 0,
         title := some nm }] := by
  have hid : ∀ x : ThreadDir, (parseThreadMetadata x).id = x.threadId := by
    intro x
    cases hx : x.firstFragment <;> simp [parseThreadMetadata, hx]
  have hsplit : (jsSplitOn 47 d.threadId).getLast? = some nm := by
    rcases hshape with hsh | hsh
    · rw [hsh]
      exact jsSplitOn_getLast_append 47 nm hnm pfx
    · rw [hsh, jsSplitOn_of_not_mem 47 nm hnm]
      rfl
  have hfall : parseThreadMetadata d =
      { id := d.threadId, participants := [], lastMessageTime := 0, totalMessages := 0,
        title := some nm } := by
    cases hx : d.firstFragment with
    | ok data => exact absurd hx (hfail data)
    | unreadable => simp [parseThreadMetadata, hx, hsplit]
    | badJson => simp [parseThreadMetadata, hx, hsplit]
    | badSchema => simp [parseThreadMetadata, hx, hsplit]
  have hcomm : (scanArchive dirs).filter (fun m => decide (m.id = d.threadId)) =
      (dirs.filter (fun x => decide (x.threadId = d.threadId))).map parseThreadMetadata := by
    rw [scanArchive, List.filter_map]
    congr 1
    apply List.filter_congr
    intro x _
    simp [Function.comp_def, hid x]
  rw [hcomm, hmem, List.map_cons, List.map_nil, hfall]

/-- Witness for C8: scanning a single conversation directory
`inbox/alice` whose first fragment is unreadable yields exactly one
entry, titled `alice`, with no participants and zero counts. -/
theorem scanArchive_unreadable_fallback_witness :
    (scanArchive
        [{ threadId := jsStr "inbox/alice", firstFragment := FragmentInput.unreadable }]).filter
        (fun m => decide (m.id = jsStr "inbox/alice")) =
      [{ id := jsStr "inbox/alice", participants := [], lastMessageTime := 0, totalMessages := 0,
         title := some (jsStr "alice") }] :=
  scanArchive_unreadable_fallback
    [{ threadId := jsStr "inbox/alice", firstFragment := FragmentInput.unreadable }]
    { threadId := jsStr "inbox/alice", firstFragment := FragmentInput.unreadable }
    (jsStr "inbox") (jsStr "alice")
    (by decide)
    (fun _ h => FragmentInput.noConfusion h)
    (Or.inl (by decide))
    (by decide)

/-! ## Claim C9 -/

theorem jsOrZero_eq (x : Int) : jsOrZero x = x := by
  by_cases h : x = 0
  · simp [jsOrZero, h]
  · simp [jsOrZero, h]

theorem filter_replace_of_countP_one {α : Type} (p : α → Bool) (a : α) (ha : p a = true) :
    ∀ l : List α, l.countP p = 1 →
      (match l.findIdx? p with
       | some i => l.set i a
       | none => l ++ [a]).filter p = [a] := by
  intro l
  induction l with
  | nil => intro h; simp at h
  | cons x xs ih =>
    intro h
    rw [List.countP_cons] at h
    by_cases hx : p x = true
    · have hxs : xs.countP p = 0 := by
        rw [hx] at h
        simpa using h
      have hfe : xs.filter p = [] :=
        List.length_eq_zero.mp (by rw [← List.countP_eq_length_filter]; exact hxs)
      simp only [List.findIdx?_cons, hx, if_true, List.set_cons_zero]
      rw [List.filter_cons_of_pos ha, hfe]
    · have hx2 : p x = false := by simpa using hx
      have hxs : xs.countP p = 1 := by
        rw [hx2] at h
        simpa using h
      simp only [List.findIdx?_cons, hx2, Bool.false_eq_true, if_false, List.findIdx?_succ]
      cases hf : xs.findIdx? p with
      | none =>
        have := List.findIdx?_eq_none_iff.mp hf
        have : xs.countP p = 0 := by
          rw [List.countP_eq_length_filter]
          have hfe : xs.filter p = [] := List.filter_eq_nil_iff.mpr
            (fun b hb => by simp [List.findIdx?_eq_none_iff.mp hf b hb])
          simp [hfe]
        omega
      | some i =>
        simp only [Option.map_some']
        rw [List.set_cons_succ]
        rw [List.filter_cons_of_neg (by simp [hx2])]
        have := ih hxs
        rw [hf] at this
        exact this

/-- C9: once a full conversation is assembled, `addThread` recomputes
its metadata from the complete merged message set — total count is the
merged length, last-message time is the timestamp of the last (and,
the stream being sorted, latest) merged message — and this recomputed
entry replaces the scan-time estimate stored under the same
conversation id: afterwards the state holds exactly one entry for that
id, the recomputed one. -/
theorem addThread_recomputes_metadata (prev : List ThreadMetadata) (thread : ParsedThread)
    (m : Message)
    (huniq : prev.countP (fun x => decide (x.id = thread.threadId)) = 1)
    (hlast : thread.messages.getLast? = some m)
    (hsorted : thread.messages.Pairwise (fun a b => a.timestamp_ms ≤ b.timestamp_ms)) :
    (addThread prev thread).filter (fun x => decide (x.id = thread.threadId)) =
      [{ id := thread.threadId, participants := thread.participants,
         lastMessageTime := m.timestamp_ms, totalMessages := thread.messages.length,
         title := thread.title }]
    ∧ ∀ x ∈ thread.messages, x.timestamp_ms ≤ m.timestamp_ms := by
  have haddeq : addThread prev thread =
      (match prev.findIdx? (fun x : ThreadMetadata => decide (x.id = thread.threadId)) with
       | some i => prev.set i (recomputedMetadata thread)
       | none => prev ++ [recomputedMetadata thread]).mergeSort metaLe := rfl
  have hmeta : recomputedMetadata thread =
      { id := thread.threadId, participants := thread.participants,
        lastMessageTime := m.timestamp_ms, totalMessages := thread.messages.length,
        title := thread.title } := by
    unfold recomputedMetadata
    rw [hlast]
    simp [jsOrZero_eq]
  constructor
  · have hperm := (List.mergeSort_perm
      (match prev.findIdx? (fun x => decide (x.id = thread.threadId)) with
       | some i => prev.set i (recomputedMetadata thread)
       | none => prev ++ [recomputedMetadata thread]) metaLe).filter
      (fun x => decide (x.id = thread.threadId))
    rw [← haddeq] at hperm
    have hfil := filter_replace_of_countP_one (fun x => decide (x.id = thread.threadId))
      (recomputedMetadata thread) (by simp [recomputedMetadata]) prev huniq
    rw [hfil] at hperm
    have heq := List.perm_singleton.mp hperm
    rw [heq, hmeta]
  · intro x hx
    obtain ⟨ys, hys⟩ := List.getLast?_eq_some_iff.mp hlast
    rw [hys] at hsorted hx
    rcases List.mem_append.mp hx with hy | hm2
    · have hp := (List.pairwise_append.mp hsorted).2.2
      exact hp x hy m (by simp)
    · simp at hm2
      simp [hm2]

/-- Witness for C9: a one-message conversation replaces its scan-time
stub (count 0, time 0) with the recomputed entry (count 1, time 5). -/
theorem addThread_recomputes_metadata_witness :
    (addThread
        [{ id := jsStr "x", participants := [], lastMessageTime := 0, totalMessages := 0,
           title := none }]
        { threadId := jsStr "x", participants := [{ name := jsStr "P" }], messages := [msgAt5],
          title := some (jsStr "T") }).filter (fun x => decide (x.id = jsStr "x")) =
      [{ id := jsStr "x", participants := [{ name := jsStr "P" }], lastMessageTime := 5,
         totalMessages := 1, title := some (jsStr "T") }]
    ∧ ∀ x ∈ [msgAt5], x.timestamp_ms ≤ msgAt5.timestamp_ms := by
  have h := addThread_recomputes_metadata
    [{ id := jsStr "x", participants := [], lastMessageTime := 0, totalMessages := 0,
       title := none }]
    { threadId := jsStr "x", participants := [{ name := jsStr "P" }], messages := [msgAt5],
      title := some (jsStr "T") }
    msgAt5 (by decide) (by decide) (by simp)
  simpa using h

end MsgArchive
